import Mathlib

/-!
Verification of the HyperLogLog cardinality sketch (`dsa5.cpp`): the naive
register store (`HLL`), the compact 5-bit store (`HLL_Improved`), the
hash-to-register mapping, the leading-zero rank, the bias-corrected
estimator, and the memory formula.

Machine integers are embedded as `Nat` with explicit `% 2^32` where the
C++ code works on `uint32_t`; the `double` arithmetic of `estimate` is
embedded over `ℚ` (all quantities up to the logarithm are dyadic
rationals) with the final value in `ℝ` via `Real.log`.  Items are an
abstract type `α` and the injected hash function an arbitrary
`hash : α → ℕ`, reduced `% 2^32` at the call site to model its
`uint32_t` return type.
-/

/-- The `while((x & 0x80000000) == 0) { zeros++; x <<= 1; }` loop of
`count_zeros`, with explicit fuel (the C++ loop runs at most 31 times on a
nonzero `uint32_t`, and `count_zeros` only reaches it for nonzero input). -/
def clzLoop : ℕ → ℕ → ℕ
  | 0, _ => 0
  | fuel + 1, x => if x < 2 ^ 31 then clzLoop fuel (x * 2 % 2 ^ 32) + 1 else 0

/-- `HLL::count_zeros` / `HLL_Improved::count_zeros` (the two classes define
it identically): leading zeros of a 32-bit word, with `32 - B` returned for
the word `0`. -/
def count_zeros (B x : ℕ) : ℕ :=
  if x = 0 then 32 - B else clzLoop 32 x

namespace HLL

/-- `HLL::add`: hash the item to a `uint32_t`, take the top `B` bits as the
register index, left-align the rest, count leading zeros plus one, and
store the maximum with the current register value. -/
def add {α : Type} (B : ℕ) (hash : α → ℕ) (regs : List ℕ) (s : α) : List ℕ :=
  let h := hash s % 2 ^ 32
  let idx := h / 2 ^ (32 - B)
  let w := h * 2 ^ B % 2 ^ 32
  let zeros := count_zeros B w + 1
  if regs.getD idx 0 < zeros then regs.set idx zeros else regs

/-- `HLL::clear`: `fill(regs.begin(), regs.end(), 0)`. -/
def clear (regs : List ℕ) : List ℕ := regs.map (fun _ => 0)

end HLL

namespace HLL_Improved

/-- `HLL_Improved::add`: as `HLL::add`, but the rank is clamped to 31
(`if (zeros > 31) zeros = 31`) before being stored into the 5-bit register
(`bitset<5>` assignment keeps the low 5 bits, hence the `% 32`). -/
def add {α : Type} (B : ℕ) (hash : α → ℕ) (regs : List ℕ) (s : α) : List ℕ :=
  let h := hash s % 2 ^ 32
  let idx := h / 2 ^ (32 - B)
  let w := h * 2 ^ B % 2 ^ 32
  let zeros0 := count_zeros B w + 1
  let zeros := if 31 < zeros0 then 31 else zeros0
  if regs.getD idx 0 < zeros then regs.set idx (zeros % 32) else regs

/-- `HLL_Improved::memory_usage`: `m * 5 / 8` with `m = 1 << B`
(C++ integer division). -/
def memory_usage (B : ℕ) : ℕ := 2 ^ B * 5 / 8

end HLL_Improved

/-- The `sum += 1.0 / (1ULL << r)` accumulation of `estimate` over the
register list (exact in `double` for the reachable register values, hence
embedded in `ℚ`). -/
def Zsum (regs : List ℕ) : ℚ := (regs.map (fun r => 1 / 2 ^ r)).sum

/-- The `zero_regs` count of `estimate`: how many registers hold 0. -/
def zero_regs (regs : List ℕ) : ℕ := regs.countP (· == 0)

/-- The raw estimate `E = 0.7213 * m * m / sum` of `estimate`. -/
def rawEst (B : ℕ) (regs : List ℕ) : ℚ :=
  7213 / 10000 * 2 ^ B * 2 ^ B / Zsum regs

/-- `HLL::estimate` / `HLL_Improved::estimate` (the two classes define it
identically over the logical register values): the raw harmonic-mean
estimate, replaced by linear counting `m * log(m / zero_regs)` when
`E <= 2.5 * m` and some register is still zero. -/
noncomputable def estimate (B : ℕ) (regs : List ℕ) : ℝ :=
  if rawEst B regs ≤ 5 / 2 * 2 ^ B ∧ 0 < zero_regs regs then
    (2 : ℝ) ^ B * Real.log ((2 : ℝ) ^ B / (zero_regs regs : ℝ))
  else
    ((rawEst B regs : ℚ) : ℝ)

/-- The register index `add` computes for a hash value `h`:
`(uint32_t)h >> (32 - B)`. -/
def idxOf (B h : ℕ) : ℕ := h % 2 ^ 32 / 2 ^ (32 - B)

/-- The unclamped rank `add` computes for a hash value `h`:
`count_zeros(h << B) + 1` on `uint32_t`. -/
def rankOf (B h : ℕ) : ℕ := count_zeros B (h % 2 ^ 32 * 2 ^ B % 2 ^ 32) + 1

/-- Spec-side formulation for the memory claim:
`ceil(registerCount * 5 / 8)` bytes. -/
def memoryUsageBytesSpec (m : ℕ) : ℕ := (m * 5 + 7) / 8

/-- Spec-side formulation of the rank measurement: the number of leading
zero bits of the remainder (the low `32 - B` bits of the hash), counted
within a `(32 - B)`-bit window. -/
def windowClz (B h : ℕ) : ℕ :=
  if h % 2 ^ (32 - B) = 0 then 32 - B
  else 32 - B - (Nat.log 2 (h % 2 ^ (32 - B)) + 1)

/-- An operation of the public interface, for stating that `estimate` is a
pure observer when interleaved with `add`. -/
inductive Op (α : Type) where
  | addItem : α → Op α
  | query : Op α

/-- Run a list of operations against a register state, with a pluggable
`add` (naive or compact): `addItem` steps the state, `query` records the
current `estimate` and leaves the state as the C++ method does (its body
only reads the registers). -/
noncomputable def run {α : Type} (addFn : List ℕ → α → List ℕ) (B : ℕ) :
    List ℕ → List (Op α) → List ℕ × List ℝ
  | regs, [] => (regs, [])
  | regs, Op.addItem s :: ops => run addFn B (addFn regs s) ops
  | regs, Op.query :: ops =>
      ((run addFn B regs ops).1, estimate B regs :: (run addFn B regs ops).2)

/-- The items added by a list of operations, in order. -/
def addsOf {α : Type} : List (Op α) → List α
  | [] => []
  | Op.addItem s :: ops => s :: addsOf ops
  | Op.query :: ops => addsOf ops

/-! ### List helpers -/

lemma getD_set_ne (l : List ℕ) {i j : ℕ} (a : ℕ) (h : i ≠ j) :
    (l.set i a).getD j 0 = l.getD j 0 := by
  simp [List.getD_eq_getElem?_getD, List.getElem?_set_ne h]

lemma getD_set_self (l : List ℕ) {i : ℕ} (a : ℕ) (h : i < l.length) :
    (l.set i a).getD i 0 = a := by
  simp [List.getD_eq_getElem?_getD, List.getElem?_set_eq_of_lt a h]

/-! ### The leading-zero loop -/

lemma clzLoop_spec : ∀ (fuel x : ℕ), 0 < x → x < 2 ^ 32 →
    31 - Nat.log 2 x ≤ fuel → clzLoop fuel x = 31 - Nat.log 2 x := by
  intro fuel
  induction fuel with
  | zero =>
    intro x hx hlt hle
    have hlog : Nat.log 2 x = 31 := by
      have h32 : Nat.log 2 x < 32 := Nat.log_lt_of_lt_pow hx.ne' hlt
      omega
    simp [clzLoop, hlog]
  | succ fuel ih =>
    intro x hx hlt hle
    unfold clzLoop
    by_cases hcase : x < 2 ^ 31
    · have hx2 : x * 2 < 2 ^ 32 := by
        have : (2 : ℕ) ^ 32 = 2 ^ 31 * 2 := by norm_num
        omega
      have hmod : x * 2 % 2 ^ 32 = x * 2 := Nat.mod_eq_of_lt hx2
      have hlog2 : Nat.log 2 (x * 2) = Nat.log 2 x + 1 :=
        Nat.log_mul_base (by norm_num) hx.ne'
      have hlogx : Nat.log 2 x < 31 := Nat.log_lt_of_lt_pow hx.ne' hcase
      rw [if_pos hcase, hmod, ih (x * 2) (by omega) hx2 (by omega)]
      omega
    · have hlog : Nat.log 2 x = 31 :=
        Nat.log_eq_of_pow_le_of_lt_pow (by omega) hlt
      rw [if_neg hcase, hlog]

lemma log_mul_two_pow (r B : ℕ) (hr : r ≠ 0) :
    Nat.log 2 (r * 2 ^ B) = Nat.log 2 r + B := by
  induction B with
  | zero => simp
  | succ B ih =>
    have h1 : r * 2 ^ (B + 1) = r * 2 ^ B * 2 := by ring
    have h2 : r * 2 ^ B ≠ 0 := by positivity
    rw [h1, Nat.log_mul_base (by norm_num) h2, ih]
    omega

/-! ### The index and the rank as `add` computes them -/

lemma shift_mod (B h : ℕ) (hB : B ≤ 32) :
    h % 2 ^ 32 * 2 ^ B % 2 ^ 32 = h % 2 ^ (32 - B) * 2 ^ B := by
  have hsplit : (2 : ℕ) ^ 32 = 2 ^ (32 - B) * 2 ^ B := by
    rw [← pow_add]
    congr 1
    omega
  rw [hsplit, Nat.mul_mod_mul_right, Nat.mod_mod_of_dvd _ (dvd_mul_right _ _)]

lemma count_zeros_shift (B h : ℕ) (hB : B ≤ 32) :
    count_zeros B (h % 2 ^ 32 * 2 ^ B % 2 ^ 32) = windowClz B h := by
  rw [shift_mod B h hB]
  set r := h % 2 ^ (32 - B) with hr
  have hrlt : r < 2 ^ (32 - B) := Nat.mod_lt _ (by positivity)
  by_cases hr0 : r = 0
  · simp [count_zeros, windowClz, hr0, ← hr]
  · have hw0 : r * 2 ^ B ≠ 0 := by positivity
    have hwlt : r * 2 ^ B < 2 ^ 32 := by
      calc r * 2 ^ B < 2 ^ (32 - B) * 2 ^ B := by
            exact mul_lt_mul_of_pos_right hrlt (by positivity)
        _ = 2 ^ 32 := by rw [← pow_add]; congr 1; omega
    have hlogr : Nat.log 2 r < 32 - B := Nat.log_lt_of_lt_pow hr0 hrlt
    rw [count_zeros, if_neg hw0,
      clzLoop_spec 32 _ (Nat.pos_of_ne_zero hw0) hwlt (by omega),
      log_mul_two_pow r B hr0, windowClz, if_neg hr0, ← hr]
    omega

lemma rankOf_eq (B h : ℕ) (hB : B ≤ 32) : rankOf B h = windowClz B h + 1 := by
  rw [rankOf, count_zeros_shift B h hB]

lemma windowClz_le (B h : ℕ) : windowClz B h ≤ 32 - B := by
  rw [windowClz]
  split <;> omega

lemma rankOf_le (B h : ℕ) (hB : B ≤ 32) : rankOf B h ≤ 32 - B + 1 := by
  rw [rankOf_eq B h hB]
  have := windowClz_le B h
  omega

lemma idxOf_lt (B h : ℕ) (hB : B ≤ 32) : idxOf B h < 2 ^ B := by
  rw [idxOf, Nat.div_lt_iff_lt_mul (by positivity)]
  calc h % 2 ^ 32 < 2 ^ 32 := Nat.mod_lt _ (by positivity)
    _ = 2 ^ B * 2 ^ (32 - B) := by rw [← pow_add]; congr 1; omega

/-! ### Unfolding the two `add` methods through `idxOf` and `rankOf` -/

lemma HLL.add_naive_eq {α : Type} (B : ℕ) (hash : α → ℕ) (regs : List ℕ) (s : α) :
    HLL.add B hash regs s =
      if regs.getD (idxOf B (hash s)) 0 < rankOf B (hash s) then
        regs.set (idxOf B (hash s)) (rankOf B (hash s))
      else regs := rfl

lemma HLL_Improved.add_compact_eq {α : Type} (B : ℕ) (hash : α → ℕ) (regs : List ℕ)
    (s : α) :
    HLL_Improved.add B hash regs s =
      if regs.getD (idxOf B (hash s)) 0 < min (rankOf B (hash s)) 31 then
        regs.set (idxOf B (hash s)) (min (rankOf B (hash s)) 31)
      else regs := by
  show (if regs.getD (idxOf B (hash s)) 0 <
          (if 31 < rankOf B (hash s) then 31 else rankOf B (hash s)) then
        regs.set (idxOf B (hash s))
          ((if 31 < rankOf B (hash s) then 31 else rankOf B (hash s)) % 32)
      else regs) = _
  have h1 : (if 31 < rankOf B (hash s) then 31 else rankOf B (hash s))
      = min (rankOf B (hash s)) 31 := by
    rcases le_or_lt (rankOf B (hash s)) 31 with h | h
    · rw [if_neg (by omega), min_eq_left h]
    · rw [if_pos h, min_eq_right (by omega)]
  have h2 : min (rankOf B (hash s)) 31 % 32 = min (rankOf B (hash s)) 31 :=
    Nat.mod_eq_of_lt (by omega)
  rw [h1, h2]

/-! ### Step behaviour of `add`: length, frame, monotonicity, max update -/

lemma HLL.length_add_naive {α : Type} (B : ℕ) (hash : α → ℕ) (regs : List ℕ)
    (s : α) : (HLL.add B hash regs s).length = regs.length := by
  rw [HLL.add_naive_eq]
  split <;> simp

lemma HLL_Improved.length_add_compact {α : Type} (B : ℕ) (hash : α → ℕ)
    (regs : List ℕ) (s : α) :
    (HLL_Improved.add B hash regs s).length = regs.length := by
  rw [HLL_Improved.add_compact_eq]
  split <;> simp

lemma HLL.add_naive_getD_ne {α : Type} (B : ℕ) (hash : α → ℕ) (regs : List ℕ)
    (s : α) {j : ℕ} (hj : j ≠ idxOf B (hash s)) :
    (HLL.add B hash regs s).getD j 0 = regs.getD j 0 := by
  rw [HLL.add_naive_eq]
  split
  · exact getD_set_ne regs _ (Ne.symm hj)
  · rfl

lemma HLL_Improved.add_compact_getD_ne {α : Type} (B : ℕ) (hash : α → ℕ)
    (regs : List ℕ) (s : α) {j : ℕ} (hj : j ≠ idxOf B (hash s)) :
    (HLL_Improved.add B hash regs s).getD j 0 = regs.getD j 0 := by
  rw [HLL_Improved.add_compact_eq]
  split
  · exact getD_set_ne regs _ (Ne.symm hj)
  · rfl

lemma HLL.add_naive_getD_idx {α : Type} (B : ℕ) (hash : α → ℕ) (regs : List ℕ)
    (s : α) (hidx : idxOf B (hash s) < regs.length) :
    (HLL.add B hash regs s).getD (idxOf B (hash s)) 0
      = max (regs.getD (idxOf B (hash s)) 0) (rankOf B (hash s)) := by
  rw [HLL.add_naive_eq]
  split
  · rw [getD_set_self regs _ hidx]
    omega
  · omega

lemma HLL_Improved.add_compact_getD_idx {α : Type} (B : ℕ) (hash : α → ℕ)
    (regs : List ℕ) (s : α) (hidx : idxOf B (hash s) < regs.length) :
    (HLL_Improved.add B hash regs s).getD (idxOf B (hash s)) 0
      = max (regs.getD (idxOf B (hash s)) 0) (min (rankOf B (hash s)) 31) := by
  rw [HLL_Improved.add_compact_eq]
  split
  · rw [getD_set_self regs _ hidx]
    omega
  · omega

lemma HLL.add_naive_getD_mono {α : Type} (B : ℕ) (hash : α → ℕ) (regs : List ℕ)
    (s : α) (j : ℕ) : regs.getD j 0 ≤ (HLL.add B hash regs s).getD j 0 := by
  rcases eq_or_ne j (idxOf B (hash s)) with hj | hj
  · rw [hj]
    rcases lt_or_le (idxOf B (hash s)) regs.length with hlen | hlen
    · rw [HLL.add_naive_eq]
      split
      · rw [getD_set_self regs _ hlen]
        omega
      · omega
    · rw [List.getD_eq_default _ _ hlen]
      omega
  · rw [HLL.add_naive_getD_ne B hash regs s hj]

lemma HLL_Improved.add_compact_getD_mono {α : Type} (B : ℕ) (hash : α → ℕ)
    (regs : List ℕ) (s : α) (j : ℕ) :
    regs.getD j 0 ≤ (HLL_Improved.add B hash regs s).getD j 0 := by
  rcases eq_or_ne j (idxOf B (hash s)) with hj | hj
  · rw [hj]
    rcases lt_or_le (idxOf B (hash s)) regs.length with hlen | hlen
    · rw [HLL_Improved.add_compact_eq]
      split
      · rw [getD_set_self regs _ hlen]
        omega
      · omega
    · rw [List.getD_eq_default _ _ hlen]
      omega
  · rw [HLL_Improved.add_compact_getD_ne B hash regs s hj]

/-! ### Behaviour over a whole sequence of `add` calls -/

lemma HLL.length_foldl_naive {α : Type} (B : ℕ) (hash : α → ℕ) (regs : List ℕ)
    (items : List α) :
    (List.foldl (HLL.add B hash) regs items).length = regs.length := by
  induction items generalizing regs with
  | nil => rfl
  | cons a l ih => rw [List.foldl_cons, ih, HLL.length_add_naive]

lemma HLL_Improved.length_foldl_compact {α : Type} (B : ℕ) (hash : α → ℕ)
    (regs : List ℕ) (items : List α) :
    (List.foldl (HLL_Improved.add B hash) regs items).length = regs.length := by
  induction items generalizing regs with
  | nil => rfl
  | cons a l ih => rw [List.foldl_cons, ih, HLL_Improved.length_add_compact]

lemma HLL.foldl_naive_getD_mono {α : Type} (B : ℕ) (hash : α → ℕ) (regs : List ℕ)
    (items : List α) (j : ℕ) :
    regs.getD j 0 ≤ (List.foldl (HLL.add B hash) regs items).getD j 0 := by
  induction items generalizing regs with
  | nil => exact le_rfl
  | cons a l ih =>
    rw [List.foldl_cons]
    exact le_trans (HLL.add_naive_getD_mono B hash regs a j) (ih _)

lemma HLL_Improved.foldl_compact_getD_mono {α : Type} (B : ℕ) (hash : α → ℕ)
    (regs : List ℕ) (items : List α) (j : ℕ) :
    regs.getD j 0
      ≤ (List.foldl (HLL_Improved.add B hash) regs items).getD j 0 := by
  induction items generalizing regs with
  | nil => exact le_rfl
  | cons a l ih =>
    rw [List.foldl_cons]
    exact le_trans (HLL_Improved.add_compact_getD_mono B hash regs a j) (ih _)

/-! ### For precision at least 2 the clamp never fires and the two stores
agree exactly -/

lemma rankOf_le_31 (B h : ℕ) (hB2 : 2 ≤ B) (hB32 : B ≤ 32) :
    rankOf B h ≤ 31 := by
  have := rankOf_le B h hB32
  omega

lemma HLL_Improved.add_compact_eq_naive {α : Type} (B : ℕ) (hB2 : 2 ≤ B)
    (hB32 : B ≤ 32) (hash : α → ℕ) (regs : List ℕ) (s : α) :
    HLL_Improved.add B hash regs s = HLL.add B hash regs s := by
  rw [HLL_Improved.add_compact_eq, HLL.add_naive_eq,
    min_eq_left (rankOf_le_31 B (hash s) hB2 hB32)]

lemma HLL_Improved.foldl_eq_foldl {α : Type} (B : ℕ) (hB2 : 2 ≤ B)
    (hB32 : B ≤ 32) (hash : α → ℕ) (regs : List ℕ) (items : List α) :
    List.foldl (HLL_Improved.add B hash) regs items
      = List.foldl (HLL.add B hash) regs items := by
  induction items generalizing regs with
  | nil => rfl
  | cons a l ih =>
    rw [List.foldl_cons, List.foldl_cons,
      HLL_Improved.add_compact_eq_naive B hB2 hB32 hash regs a, ih]

/-! ### A register keeps any rank it has seen -/

lemma HLL.rank_le_foldl_naive {α : Type} (B : ℕ) (hB32 : B ≤ 32) (hash : α → ℕ)
    (items : List α) (x : α) (hx : x ∈ items) (regs : List ℕ)
    (hlen : regs.length = 2 ^ B) :
    rankOf B (hash x)
      ≤ (List.foldl (HLL.add B hash) regs items).getD (idxOf B (hash x)) 0 := by
  induction items generalizing regs with
  | nil => cases hx
  | cons a l ih =>
    rw [List.foldl_cons]
    rcases List.mem_cons.mp hx with hxa | hxl
    · subst hxa
      refine le_trans ?_ (HLL.foldl_naive_getD_mono B hash _ l _)
      rw [HLL.add_naive_getD_idx B hash regs x (by rw [hlen]; exact idxOf_lt B _ hB32)]
      omega
    · exact ih hxl _ (by rw [HLL.length_add_naive, hlen])

lemma HLL_Improved.rank_le_foldl_compact {α : Type} (B : ℕ) (hB32 : B ≤ 32)
    (hash : α → ℕ) (items : List α) (x : α) (hx : x ∈ items) (regs : List ℕ)
    (hlen : regs.length = 2 ^ B) :
    min (rankOf B (hash x)) 31
      ≤ (List.foldl (HLL_Improved.add B hash) regs items).getD
          (idxOf B (hash x)) 0 := by
  induction items generalizing regs with
  | nil => cases hx
  | cons a l ih =>
    rw [List.foldl_cons]
    rcases List.mem_cons.mp hx with hxa | hxl
    · subst hxa
      refine le_trans ?_ (HLL_Improved.foldl_compact_getD_mono B hash _ l _)
      rw [HLL_Improved.add_compact_getD_idx B hash regs x
        (by rw [hlen]; exact idxOf_lt B _ hB32)]
      omega
    · exact ih hxl _ (by rw [HLL_Improved.length_add_compact, hlen])

lemma HLL.add_naive_of_rank_le {α : Type} (B : ℕ) (hash : α → ℕ) (regs : List ℕ)
    (x : α) (hr : rankOf B (hash x) ≤ regs.getD (idxOf B (hash x)) 0) :
    HLL.add B hash regs x = regs := by
  rw [HLL.add_naive_eq, if_neg (by omega)]

lemma HLL_Improved.add_compact_of_rank_le {α : Type} (B : ℕ) (hash : α → ℕ)
    (regs : List ℕ) (x : α)
    (hr : min (rankOf B (hash x)) 31 ≤ regs.getD (idxOf B (hash x)) 0) :
    HLL_Improved.add B hash regs x = regs := by
  rw [HLL_Improved.add_compact_eq, if_neg (by omega)]

/-! ### The estimator's ingredients -/

lemma Zsum_nil : Zsum [] = 0 := rfl

lemma Zsum_cons (a : ℕ) (l : List ℕ) : Zsum (a :: l) = 1 / 2 ^ a + Zsum l := by
  simp [Zsum]

lemma Zsum_nonneg (regs : List ℕ) : 0 ≤ Zsum regs := by
  induction regs with
  | nil => simp [Zsum_nil]
  | cons a l ih =>
    rw [Zsum_cons]
    positivity

lemma Zsum_pos (a : ℕ) (l : List ℕ) : 0 < Zsum (a :: l) := by
  rw [Zsum_cons]
  have := Zsum_nonneg l
  positivity

lemma Zsum_replicate (n : ℕ) : Zsum (List.replicate n 0) = n := by
  induction n with
  | zero => simp [Zsum_nil]
  | succ n ih =>
    rw [List.replicate_succ, Zsum_cons, ih]
    push_cast
    ring

lemma zero_regs_replicate (n : ℕ) : zero_regs (List.replicate n 0) = n := by
  induction n with
  | zero => rfl
  | succ n ih =>
    rw [zero_regs, List.replicate_succ, List.countP_cons] at *
    simp only [beq_self_eq_true, if_pos] at *
    omega

lemma clear_eq_replicate (regs : List ℕ) :
    HLL.clear regs = List.replicate regs.length 0 := by
  induction regs with
  | nil => rfl
  | cons a l ih =>
    rw [HLL.clear] at *
    simp only [List.map_cons, List.length_cons, List.replicate_succ, ih]

lemma estimate_all_zero (B : ℕ) : estimate B (List.replicate (2 ^ B) 0) = 0 := by
  have hZ : Zsum (List.replicate (2 ^ B) 0) = (2 : ℚ) ^ B := by
    rw [Zsum_replicate]
    push_cast
    ring
  have hzr : zero_regs (List.replicate (2 ^ B) 0) = 2 ^ B :=
    zero_regs_replicate _
  have h2 : ((2 : ℚ) ^ B) ≠ 0 := by positivity
  have hE : rawEst B (List.replicate (2 ^ B) 0) = 7213 / 10000 * 2 ^ B := by
    rw [rawEst, hZ, mul_div_assoc, div_self h2, mul_one]
  have hcond : rawEst B (List.replicate (2 ^ B) 0) ≤ 5 / 2 * 2 ^ B
      ∧ 0 < zero_regs (List.replicate (2 ^ B) 0) := by
    constructor
    · rw [hE]
      exact mul_le_mul_of_nonneg_right (by norm_num) (by positivity)
    · rw [hzr]
      positivity
  rw [estimate, if_pos hcond, hzr]
  push_cast
  rw [div_self (by positivity), Real.log_one, mul_zero]

/-! ### Casting the estimator's quantities to the real-valued formulas of
the specification -/

lemma Zsum_cast (regs : List ℕ) :
    ((Zsum regs : ℚ) : ℝ) = (regs.map (fun (r : ℕ) => (2 : ℝ) ^ (-(r : ℤ)))).sum := by
  induction regs with
  | nil => simp [Zsum_nil]
  | cons a l ih =>
    rw [Zsum_cons, List.map_cons, List.sum_cons, ← ih]
    push_cast
    rw [zpow_neg, zpow_natCast]
    ring

lemma zero_regs_eq_filter (regs : List ℕ) :
    zero_regs regs = (regs.filter (fun r => r == 0)).length := by
  rw [zero_regs, List.countP_eq_length_filter]

lemma rawEst_cast (B : ℕ) (regs : List ℕ) :
    ((rawEst B regs : ℚ) : ℝ)
      = 0.7213 * ((2 : ℝ) ^ B) ^ 2
          / (regs.map (fun (r : ℕ) => (2 : ℝ) ^ (-(r : ℤ)))).sum := by
  rw [rawEst, ← Zsum_cast]
  push_cast
  norm_num
  ring

lemma rawEst_cond_iff (B : ℕ) (regs : List ℕ) :
    rawEst B regs ≤ 5 / 2 * 2 ^ B
      ↔ 0.7213 * ((2 : ℝ) ^ B) ^ 2
            / (regs.map (fun (r : ℕ) => (2 : ℝ) ^ (-(r : ℤ)))).sum
          ≤ 2.5 * (2 : ℝ) ^ B := by
  rw [← rawEst_cast,
    show (2.5 * (2 : ℝ) ^ B) = ((5 / 2 * 2 ^ B : ℚ) : ℝ) by push_cast; norm_num]
  exact Rat.cast_le.symm

/-! ### The runner for interleaved operations -/

lemma run_fst {α : Type} (addFn : List ℕ → α → List ℕ) (B : ℕ) :
    ∀ (ops : List (Op α)) (regs : List ℕ),
      (run addFn B regs ops).1 = List.foldl addFn regs (addsOf ops) := by
  intro ops
  induction ops with
  | nil => intro regs; rfl
  | cons op l ih =>
    intro regs
    cases op with
    | addItem s => rw [run, addsOf, List.foldl_cons, ih]
    | query => rw [run, addsOf, ih]

/-! ## The claims -/

/-- Claim C1, counterexample at precision 1: after adding the two items
hashing to `0` and `2^31`, the naive store holds rank 32 in both registers
while the compact store clamps both to 31, and the two `estimate()` values
differ (no register is zero, so both sketches return their raw estimates,
which are distinct). -/
theorem C1_counterexample :
    estimate 1 (List.foldl (HLL_Improved.add 1 (fun n : ℕ => n))
        (List.replicate (2 ^ 1) 0) [0, 2 ^ 31])
      ≠ estimate 1 (List.foldl (HLL.add 1 (fun n : ℕ => n))
          (List.replicate (2 ^ 1) 0) [0, 2 ^ 31]) := by
  have hI : List.foldl (HLL_Improved.add 1 (fun n : ℕ => n))
      (List.replicate (2 ^ 1) 0) [0, 2 ^ 31] = [31, 31] := by decide
  have hN : List.foldl (HLL.add 1 (fun n : ℕ => n))
      (List.replicate (2 ^ 1) 0) [0, 2 ^ 31] = [32, 32] := by decide
  rw [hI, hN]
  have c31 : ¬ (rawEst 1 [31, 31] ≤ 5 / 2 * 2 ^ 1 ∧ 0 < zero_regs [31, 31]) := by
    norm_num [rawEst, Zsum, zero_regs]
  have c32 : ¬ (rawEst 1 [32, 32] ≤ 5 / 2 * 2 ^ 1 ∧ 0 < zero_regs [32, 32]) := by
    norm_num [rawEst, Zsum, zero_regs]
  unfold estimate
  rw [if_neg c31, if_neg c32]
  have hne : rawEst 1 [31, 31] ≠ rawEst 1 [32, 32] := by
    norm_num [rawEst, Zsum]
  exact fun hEq => hne (Rat.cast_injective hEq)

/-- Claim C1 (amended to precision in [2,16]; at precision 1 the compact
store clamps rank 32 to 31 and the estimates can differ): for every
precision in [2,16], every hash function and every sequence of `add`
operations applied to both storage variants from a fresh sketch, the two
register states coincide and `estimate()` returns the same value. -/
theorem C1_storage_equivalence (α : Type) (B : ℕ) (hB2 : 2 ≤ B)
    (hB16 : B ≤ 16) (hash : α → ℕ) (items : List α) :
    List.foldl (HLL_Improved.add B hash) (List.replicate (2 ^ B) 0) items
      = List.foldl (HLL.add B hash) (List.replicate (2 ^ B) 0) items
    ∧ estimate B
        (List.foldl (HLL_Improved.add B hash) (List.replicate (2 ^ B) 0) items)
      = estimate B
          (List.foldl (HLL.add B hash) (List.replicate (2 ^ B) 0) items) := by
  have h := HLL_Improved.foldl_eq_foldl B hB2 (by omega) hash
    (List.replicate (2 ^ B) 0) items
  exact ⟨h, by rw [h]⟩

/-- Witness for C1 at precision 2 with the identity hash and one item. -/
theorem C1_storage_equivalence_witness :
    2 ≤ 2 ∧ 2 ≤ 16
    ∧ (List.foldl (HLL_Improved.add 2 (fun n : ℕ => n))
          (List.replicate (2 ^ 2) 0) [7]
        = List.foldl (HLL.add 2 (fun n : ℕ => n))
            (List.replicate (2 ^ 2) 0) [7]
      ∧ estimate 2 (List.foldl (HLL_Improved.add 2 (fun n : ℕ => n))
            (List.replicate (2 ^ 2) 0) [7])
        = estimate 2 (List.foldl (HLL.add 2 (fun n : ℕ => n))
              (List.replicate (2 ^ 2) 0) [7])) :=
  ⟨by decide, by decide,
    C1_storage_equivalence ℕ 2 (by decide) (by decide) (fun n : ℕ => n) [7]⟩

/-- Claim C2, counterexample at precision 1: `memory_usage` returns
`2 * 5 / 8 = 1` (integer division rounds down) while
`ceil(2 * 5 / 8) = 2`. -/
theorem C2_counterexample :
    HLL_Improved.memory_usage 1 ≠ memoryUsageBytesSpec (2 ^ 1) := by decide

/-- Claim C2 (amended: the formula is floor, not ceil; the two agree for
every precision at least 3, where `8` divides `registerCount`): for every
precision at least 3, `memory_usage` equals `ceil(registerCount * 5 / 8)`,
and for precision 8 it returns 160. -/
theorem C2_memory_formula (B : ℕ) (hB : 3 ≤ B) :
    HLL_Improved.memory_usage B = memoryUsageBytesSpec (2 ^ B)
    ∧ HLL_Improved.memory_usage 8 = 160 := by
  constructor
  · have hk : (2 : ℕ) ^ B = 8 * 2 ^ (B - 3) := by
      have h3 : 3 + (B - 3) = B := by omega
      rw [← h3, pow_add]
      norm_num
    rw [HLL_Improved.memory_usage, memoryUsageBytesSpec, hk]
    omega
  · decide

/-- Witness for C2 at precision 3. -/
theorem C2_memory_formula_witness :
    3 ≤ 3 ∧ (HLL_Improved.memory_usage 3 = memoryUsageBytesSpec (2 ^ 3)
      ∧ HLL_Improved.memory_usage 8 = 160) :=
  ⟨by decide, C2_memory_formula 3 (by decide)⟩

/-- Claim C3: for every precision in [1,16] and every 32-bit hash value,
`add` computes the index as the top `precision` bits (`h >> (32 - B)`,
one of the `2^B` registers), and the rank it computes from the left-aligned
remainder `h << B` is the leading-zero count of the remainder in a
`(32 - B)`-bit window plus 1; a zero remainder gives rank
`(32 - B) + 1`. -/
theorem C3_index_rank (B h : ℕ) (hB : 1 ≤ B) (hB16 : B ≤ 16)
    (hh : h < 2 ^ 32) :
    idxOf B h = h / 2 ^ (32 - B)
    ∧ idxOf B h < 2 ^ B
    ∧ rankOf B h = windowClz B h + 1
    ∧ (h % 2 ^ (32 - B) = 0 → rankOf B h = 32 - B + 1) := by
  refine ⟨?_, idxOf_lt B h (by omega), rankOf_eq B h (by omega), ?_⟩
  · rw [idxOf, Nat.mod_eq_of_lt hh]
  · intro h0
    rw [rankOf_eq B h (by omega), windowClz, if_pos h0]

/-- Witness for C3 at precision 4 and hash value 12345. -/
theorem C3_index_rank_witness :
    1 ≤ 4 ∧ 4 ≤ 16 ∧ 12345 < 2 ^ 32
    ∧ (idxOf 4 12345 = 12345 / 2 ^ (32 - 4)
      ∧ idxOf 4 12345 < 2 ^ 4
      ∧ rankOf 4 12345 = windowClz 4 12345 + 1
      ∧ (12345 % 2 ^ (32 - 4) = 0 → rankOf 4 12345 = 32 - 4 + 1)) :=
  ⟨by decide, by decide, by decide,
    C3_index_rank 4 12345 (by decide) (by decide) (by decide)⟩

/-- Claim C4: on either storage variant, one `add` sets the addressed
register to the maximum of its old value and the rank (clamped to 31 in
the compact variant), every register is monotone under one `add`, and
registers are non-decreasing across any sequence of `add` calls. -/
theorem C4_monotonic (α : Type) (B : ℕ) (hB : 1 ≤ B) (hB16 : B ≤ 16)
    (hash : α → ℕ) (regs : List ℕ) (hlen : regs.length = 2 ^ B) (s : α)
    (items : List α) (j : ℕ) :
    (HLL.add B hash regs s).getD (idxOf B (hash s)) 0
      = max (regs.getD (idxOf B (hash s)) 0) (rankOf B (hash s))
    ∧ (HLL_Improved.add B hash regs s).getD (idxOf B (hash s)) 0
      = max (regs.getD (idxOf B (hash s)) 0) (min (rankOf B (hash s)) 31)
    ∧ regs.getD j 0 ≤ (HLL.add B hash regs s).getD j 0
    ∧ regs.getD j 0 ≤ (HLL_Improved.add B hash regs s).getD j 0
    ∧ regs.getD j 0 ≤ (List.foldl (HLL.add B hash) regs items).getD j 0
    ∧ regs.getD j 0
        ≤ (List.foldl (HLL_Improved.add B hash) regs items).getD j 0 := by
  have hidx : idxOf B (hash s) < regs.length := by
    rw [hlen]
    exact idxOf_lt B _ (by omega)
  exact ⟨HLL.add_naive_getD_idx B hash regs s hidx,
    HLL_Improved.add_compact_getD_idx B hash regs s hidx,
    HLL.add_naive_getD_mono B hash regs s j,
    HLL_Improved.add_compact_getD_mono B hash regs s j,
    HLL.foldl_naive_getD_mono B hash regs items j,
    HLL_Improved.foldl_compact_getD_mono B hash regs items j⟩

/-- Witness for C4 at precision 4, identity hash, fresh registers, one
item hashing to `2^27`. -/
theorem C4_monotonic_witness :
    1 ≤ 4 ∧ 4 ≤ 16 ∧ (List.replicate 16 0 : List ℕ).length = 2 ^ 4
    ∧ ((HLL.add 4 (fun n : ℕ => n) (List.replicate 16 0) (2 ^ 27)).getD
          (idxOf 4 ((fun n : ℕ => n) (2 ^ 27))) 0
        = max ((List.replicate 16 0 : List ℕ).getD
            (idxOf 4 ((fun n : ℕ => n) (2 ^ 27))) 0)
            (rankOf 4 ((fun n : ℕ => n) (2 ^ 27)))
      ∧ (HLL_Improved.add 4 (fun n : ℕ => n) (List.replicate 16 0)
            (2 ^ 27)).getD (idxOf 4 ((fun n : ℕ => n) (2 ^ 27))) 0
        = max ((List.replicate 16 0 : List ℕ).getD
            (idxOf 4 ((fun n : ℕ => n) (2 ^ 27))) 0)
            (min (rankOf 4 ((fun n : ℕ => n) (2 ^ 27))) 31)
      ∧ (List.replicate 16 0 : List ℕ).getD 0 0
          ≤ (HLL.add 4 (fun n : ℕ => n) (List.replicate 16 0)
              (2 ^ 27)).getD 0 0
      ∧ (List.replicate 16 0 : List ℕ).getD 0 0
          ≤ (HLL_Improved.add 4 (fun n : ℕ => n) (List.replicate 16 0)
              (2 ^ 27)).getD 0 0
      ∧ (List.replicate 16 0 : List ℕ).getD 0 0
          ≤ (List.foldl (HLL.add 4 (fun n : ℕ => n))
              (List.replicate 16 0) [0]).getD 0 0
      ∧ (List.replicate 16 0 : List ℕ).getD 0 0
          ≤ (List.foldl (HLL_Improved.add 4 (fun n : ℕ => n))
              (List.replicate 16 0) [0]).getD 0 0) :=
  ⟨by decide, by decide, by decide,
    C4_monotonic ℕ 4 (by decide) (by decide) (fun n : ℕ => n)
      (List.replicate 16 0) (by decide) (2 ^ 27) [0] 0⟩

/-- Claim C5: on either storage variant, re-adding an item that already
occurs in the add-sequence leaves every register unchanged and leaves
`estimate()` unchanged. -/
theorem C5_idempotent (α : Type) (B : ℕ) (hB : 1 ≤ B) (hB16 : B ≤ 16)
    (hash : α → ℕ) (items : List α) (x : α) (hx : x ∈ items) :
    HLL.add B hash
        (List.foldl (HLL.add B hash) (List.replicate (2 ^ B) 0) items) x
      = List.foldl (HLL.add B hash) (List.replicate (2 ^ B) 0) items
    ∧ estimate B (HLL.add B hash
        (List.foldl (HLL.add B hash) (List.replicate (2 ^ B) 0) items) x)
      = estimate B
          (List.foldl (HLL.add B hash) (List.replicate (2 ^ B) 0) items)
    ∧ HLL_Improved.add B hash
        (List.foldl (HLL_Improved.add B hash)
          (List.replicate (2 ^ B) 0) items) x
      = List.foldl (HLL_Improved.add B hash) (List.replicate (2 ^ B) 0) items
    ∧ estimate B (HLL_Improved.add B hash
        (List.foldl (HLL_Improved.add B hash)
          (List.replicate (2 ^ B) 0) items) x)
      = estimate B (List.foldl (HLL_Improved.add B hash)
          (List.replicate (2 ^ B) 0) items) := by
  have h1 : HLL.add B hash
      (List.foldl (HLL.add B hash) (List.replicate (2 ^ B) 0) items) x
      = List.foldl (HLL.add B hash) (List.replicate (2 ^ B) 0) items :=
    HLL.add_naive_of_rank_le B hash _ x
      (HLL.rank_le_foldl_naive B (by omega) hash items x hx _ (by simp))
  have h2 : HLL_Improved.add B hash
      (List.foldl (HLL_Improved.add B hash)
        (List.replicate (2 ^ B) 0) items) x
      = List.foldl (HLL_Improved.add B hash)
          (List.replicate (2 ^ B) 0) items :=
    HLL_Improved.add_compact_of_rank_le B hash _ x
      (HLL_Improved.rank_le_foldl_compact B (by omega) hash items x hx _ (by simp))
  exact ⟨h1, by rw [h1], h2, by rw [h2]⟩

/-- Witness for C5 at precision 4, identity hash, re-adding the single
item hashing to `2^27`. -/
theorem C5_idempotent_witness :
    1 ≤ 4 ∧ 4 ≤ 16 ∧ (2 ^ 27 : ℕ) ∈ [(2 ^ 27 : ℕ)]
    ∧ (HLL.add 4 (fun n : ℕ => n)
          (List.foldl (HLL.add 4 (fun n : ℕ => n))
            (List.replicate (2 ^ 4) 0) [2 ^ 27]) (2 ^ 27)
        = List.foldl (HLL.add 4 (fun n : ℕ => n))
            (List.replicate (2 ^ 4) 0) [2 ^ 27]
      ∧ estimate 4 (HLL.add 4 (fun n : ℕ => n)
          (List.foldl (HLL.add 4 (fun n : ℕ => n))
            (List.replicate (2 ^ 4) 0) [2 ^ 27]) (2 ^ 27))
        = estimate 4 (List.foldl (HLL.add 4 (fun n : ℕ => n))
            (List.replicate (2 ^ 4) 0) [2 ^ 27])
      ∧ HLL_Improved.add 4 (fun n : ℕ => n)
          (List.foldl (HLL_Improved.add 4 (fun n : ℕ => n))
            (List.replicate (2 ^ 4) 0) [2 ^ 27]) (2 ^ 27)
        = List.foldl (HLL_Improved.add 4 (fun n : ℕ => n))
            (List.replicate (2 ^ 4) 0) [2 ^ 27]
      ∧ estimate 4 (HLL_Improved.add 4 (fun n : ℕ => n)
          (List.foldl (HLL_Improved.add 4 (fun n : ℕ => n))
            (List.replicate (2 ^ 4) 0) [2 ^ 27]) (2 ^ 27))
        = estimate 4 (List.foldl (HLL_Improved.add 4 (fun n : ℕ => n))
            (List.replicate (2 ^ 4) 0) [2 ^ 27])) :=
  ⟨by decide, by decide, by decide,
    C5_idempotent ℕ 4 (by decide) (by decide) (fun n : ℕ => n)
      [2 ^ 27] (2 ^ 27) (by decide)⟩

/-- Claim C6: a fresh sketch (all registers 0) estimates 0, and `clear`
resets every register to 0, after which `estimate` is again 0. -/
theorem C6_zero_estimate (B : ℕ) (regs : List ℕ)
    (hlen : regs.length = 2 ^ B) :
    estimate B (List.replicate (2 ^ B) 0) = 0
    ∧ HLL.clear regs = List.replicate (2 ^ B) 0
    ∧ estimate B (HLL.clear regs) = 0 := by
  have hc : HLL.clear regs = List.replicate (2 ^ B) 0 := by
    rw [clear_eq_replicate, hlen]
  exact ⟨estimate_all_zero B, hc, by rw [hc]; exact estimate_all_zero B⟩

/-- Witness for C6 at precision 2 with a used register state. -/
theorem C6_zero_estimate_witness :
    ([5, 7, 0, 2] : List ℕ).length = 2 ^ 2
    ∧ (estimate 2 (List.replicate (2 ^ 2) 0) = 0
      ∧ HLL.clear [5, 7, 0, 2] = List.replicate (2 ^ 2) 0
      ∧ estimate 2 (HLL.clear [5, 7, 0, 2]) = 0) :=
  ⟨by decide, C6_zero_estimate 2 [5, 7, 0, 2] (by decide)⟩

lemma rawEst_cast_le_iff (B : ℕ) (regs : List ℕ) :
    ((rawEst B regs : ℚ) : ℝ) ≤ 2.5 * (2 : ℝ) ^ B
      ↔ rawEst B regs ≤ 5 / 2 * 2 ^ B := by
  rw [show (2.5 * (2 : ℝ) ^ B) = ((5 / 2 * 2 ^ B : ℚ) : ℝ) by
    push_cast; norm_num]
  exact Rat.cast_le

/-- Claim C7: `estimate` returns exactly the linear-counting value
`m * ln(m / zeroCount)` when the raw estimate `0.7213 * m^2 / Z` (with
`Z` the sum of `2^(-value)` over the registers) is at most `2.5 * m` and
some register is zero, and the raw estimate in every other case; in
particular the raw estimate is kept whenever `zeroCount = 0`. -/
theorem C7_estimate_formula (B : ℕ) (regs : List ℕ) :
    (estimate B regs =
      if 0.7213 * ((2 : ℝ) ^ B) ^ 2
            / (regs.map (fun (r : ℕ) => (2 : ℝ) ^ (-(r : ℤ)))).sum
          ≤ 2.5 * (2 : ℝ) ^ B
          ∧ 0 < (regs.filter (fun r => r == 0)).length then
        (2 : ℝ) ^ B * Real.log
          ((2 : ℝ) ^ B / ((regs.filter (fun r => r == 0)).length : ℝ))
      else
        0.7213 * ((2 : ℝ) ^ B) ^ 2
          / (regs.map (fun (r : ℕ) => (2 : ℝ) ^ (-(r : ℤ)))).sum)
    ∧ ((regs.filter (fun r => r == 0)).length = 0 →
      estimate B regs =
        0.7213 * ((2 : ℝ) ^ B) ^ 2
          / (regs.map (fun (r : ℕ) => (2 : ℝ) ^ (-(r : ℤ)))).sum) := by
  have hfilter := zero_regs_eq_filter regs
  constructor
  · by_cases hq : rawEst B regs ≤ 5 / 2 * 2 ^ B ∧ 0 < zero_regs regs
    · unfold estimate
      rw [if_pos hq, if_pos ⟨(rawEst_cond_iff B regs).mp hq.1, by
        rw [← hfilter]; exact hq.2⟩, hfilter]
    · unfold estimate
      rw [if_neg hq, if_neg (fun hc =>
        hq ⟨(rawEst_cond_iff B regs).mpr hc.1, by
          rw [hfilter]; exact hc.2⟩)]
      exact rawEst_cast B regs
  · intro h0
    have hz : zero_regs regs = 0 := by rw [hfilter, h0]
    unfold estimate
    rw [if_neg (fun hc => by omega)]
    exact rawEst_cast B regs

/-- Claim C8, counterexample to "every register contributes at least
`2^0 = 1` to the sum": in the reachable state after one `add` (precision 4,
item hashing to `2^27`), register 0 holds rank 1 and contributes
`2^(-1) = 1/2 < 1`. -/
theorem C8_counterexample :
    (1 : ℚ) / 2 ^ ((HLL.add 4 (fun n : ℕ => n)
        (List.replicate 16 0) (2 ^ 27)).getD 0 0) < 1 := by
  have h : (HLL.add 4 (fun n : ℕ => n)
      (List.replicate 16 0) (2 ^ 27)).getD 0 0 = 1 := by decide
  rw [h]
  norm_num

/-- Claim C8 (amended: every register contributes a strictly positive
term `2^(-value)`, not a term of at least 1): for every nonempty register
state, each register's contribution to `Z` is strictly positive, hence
`Z > 0` and the division in the raw estimate never divides by zero. -/
theorem C8_Z_positive (regs : List ℕ) (hne : regs ≠ []) :
    (∀ r ∈ regs, 0 < (1 : ℚ) / 2 ^ r)
    ∧ 0 < Zsum regs ∧ Zsum regs ≠ 0 := by
  obtain ⟨a, l, rfl⟩ := List.exists_cons_of_ne_nil hne
  exact ⟨fun r _ => by positivity, Zsum_pos a l, (Zsum_pos a l).ne'⟩

/-- Witness for C8 on the register state `[3, 1]`. -/
theorem C8_Z_positive_witness :
    ([3, 1] : List ℕ) ≠ []
    ∧ ((∀ r ∈ ([3, 1] : List ℕ), 0 < (1 : ℚ) / 2 ^ r)
      ∧ 0 < Zsum [3, 1] ∧ Zsum [3, 1] ≠ 0) :=
  ⟨by decide, C8_Z_positive [3, 1] (by decide)⟩

/-- Claim C9, counterexample to "add mutates exactly one register": adding
the same item a second time (precision 4, item hashing to `2^27`) changes
no register at all — the computed rank 1 does not exceed the stored 1. -/
theorem C9_counterexample :
    HLL.add 4 (fun n : ℕ => n)
        (HLL.add 4 (fun n : ℕ => n) (List.replicate 16 0) (2 ^ 27)) (2 ^ 27)
      = HLL.add 4 (fun n : ℕ => n) (List.replicate 16 0) (2 ^ 27) := by
  decide

/-- Claim C9 (amended: `add` mutates at most one register — only the
addressed one — and changes no other state): on either variant, every
register other than the computed index is unchanged by `add`, and the
register count is unchanged; `add` is total on all inputs. -/
theorem C9_frame (α : Type) (B : ℕ) (hash : α → ℕ) (regs : List ℕ) (s : α)
    (j : ℕ) (hj : j ≠ idxOf B (hash s)) :
    (HLL.add B hash regs s).getD j 0 = regs.getD j 0
    ∧ (HLL_Improved.add B hash regs s).getD j 0 = regs.getD j 0
    ∧ (HLL.add B hash regs s).length = regs.length
    ∧ (HLL_Improved.add B hash regs s).length = regs.length :=
  ⟨HLL.add_naive_getD_ne B hash regs s hj, HLL_Improved.add_compact_getD_ne B hash regs s hj,
    HLL.length_add_naive B hash regs s, HLL_Improved.length_add_compact B hash regs s⟩

/-- Witness for C9 at precision 4, identity hash, register 1 (the add
addresses register 0). -/
theorem C9_frame_witness :
    (1 : ℕ) ≠ idxOf 4 ((fun n : ℕ => n) (2 ^ 27))
    ∧ ((HLL.add 4 (fun n : ℕ => n) (List.replicate 16 0) (2 ^ 27)).getD 1 0
        = (List.replicate 16 0 : List ℕ).getD 1 0
      ∧ (HLL_Improved.add 4 (fun n : ℕ => n)
            (List.replicate 16 0) (2 ^ 27)).getD 1 0
        = (List.replicate 16 0 : List ℕ).getD 1 0
      ∧ (HLL.add 4 (fun n : ℕ => n) (List.replicate 16 0) (2 ^ 27)).length
        = (List.replicate 16 0 : List ℕ).length
      ∧ (HLL_Improved.add 4 (fun n : ℕ => n)
            (List.replicate 16 0) (2 ^ 27)).length
        = (List.replicate 16 0 : List ℕ).length) :=
  ⟨by decide, C9_frame ℕ 4 (fun n : ℕ => n) (List.replicate 16 0)
    (2 ^ 27) 1 (by decide)⟩

/-- Claim C10: `estimate` is a pure observer — running any operation
sequence, the final registers are exactly the fold of the `add` calls
(queries change nothing), two consecutive queries report the same value,
and a query leaves the state seen by the rest of the sequence unchanged;
this holds for both storage variants. -/
theorem C10_estimate_pure (α : Type) (B : ℕ) (hash : α → ℕ)
    (regs : List ℕ) (ops : List (Op α)) :
    (run (HLL.add B hash) B regs ops).1
      = List.foldl (HLL.add B hash) regs (addsOf ops)
    ∧ (run (HLL_Improved.add B hash) B regs ops).1
      = List.foldl (HLL_Improved.add B hash) regs (addsOf ops)
    ∧ (run (HLL.add B hash) B regs (Op.query :: Op.query :: ops)).2
      = estimate B regs :: estimate B regs
          :: (run (HLL.add B hash) B regs ops).2
    ∧ (run (HLL.add B hash) B regs (Op.query :: ops)).1
      = (run (HLL.add B hash) B regs ops).1 := by
  refine ⟨run_fst _ B ops regs, run_fst _ B ops regs, ?_, ?_⟩
  · rw [run, run]
  · rw [run]
